import Mathlib

/-!
Verification of the UART frame-protocol engine (`tester.py`).

The development shallowly embeds the program:

* `crc16` — the CRC-16 (Modbus) checksum (`crc16` in the source);
* `create_packet` — frame construction (`create_packet` in the source);
* `tryDecode` — the validation steps the receiver applies to a 16-byte
  candidate (header check, CRC check, payload extraction);
* `processBuffer` — the resynchronizing inner loop of `serial_receiver`;
* `fieldRecord` / `sessionRecords` / `consumeLoop` — the comparison and
  consumption loop of `main`.

Bytes are modelled as natural numbers (with `< 256` hypotheses where the
Python `bytes` type enforces byte range), machine integers as `Nat` with
explicit bounds, Python's float arithmetic in the comparison as exact
rational arithmetic, and the cross-thread queue of `main` as an explicit
list of receive events.
-/

namespace UartTester

/-! ## Checksum Module (`crc16`, tester.py lines 15-24) -/

/-- One inner-loop iteration of `crc16`: if the low bit is 1, shift right
and XOR with 0xA001, else just shift right. -/
def crcShift (crc : Nat) : Nat :=
  if crc &&& 1 = 1 then (crc >>> 1) ^^^ 0xA001 else crc >>> 1

/-- `n` iterations of the inner loop (`for _ in range(8)` uses `n = 8`). -/
def crcRounds : Nat → Nat → Nat
  | 0, crc => crc
  | n + 1, crc => crcRounds n (crcShift crc)

/-- Processing of one input byte: XOR it into the accumulator, then run the
8 inner-loop iterations. -/
def crcByte (crc b : Nat) : Nat := crcRounds 8 (crc ^^^ b)

/-- `crc16` from the source: accumulator starts at 0xFFFF and each input
byte is folded in with `crcByte`. -/
def crc16 (data : List Nat) : Nat := data.foldl crcByte 0xFFFF

/-! ### Reference definition following the specification's words

The spec describes the per-byte step as "XOR it into the low byte of the
accumulator".  The reference definition below spells that out: the high
part of the accumulator is kept and the low byte is XORed with the input
byte.  The inner loop is worded identically in spec and code. -/

/-- Reference per-byte step from the spec's words: XOR the input byte into
the low byte of the accumulator, then run 8 inner-loop iterations. -/
def crcByteSpec (crc b : Nat) : Nat :=
  crcRounds 8 (((crc >>> 8) <<< 8) ||| ((crc &&& 0xFF) ^^^ b))

/-- Reference CRC-16 Modbus checksum written from the specification text. -/
def crc16Spec (data : List Nat) : Nat := data.foldl crcByteSpec 0xFFFF

/-- XORing a byte `b < 256` into the low byte of `a` is plain XOR. -/
theorem lowByteXor (a b : Nat) (hb : b < 256) :
    ((a >>> 8) <<< 8) ||| ((a &&& 0xFF) ^^^ b) = a ^^^ b := by
  apply Nat.eq_of_testBit_eq
  intro i
  simp only [Nat.testBit_or, Nat.testBit_shiftLeft, Nat.testBit_shiftRight,
    Nat.testBit_xor, Nat.testBit_and]
  rcases lt_or_le i 8 with hi | hi
  · have h8 : (decide (8 ≤ i)) = false := by simp [Nat.not_le.mpr hi]
    have hmask : Nat.testBit 0xFF i = true := by
      have : (0xFF : Nat) = 2 ^ 8 - 1 := by norm_num
      rw [this, Nat.testBit_two_pow_sub_one]
      simp [hi]
    simp [h8, hmask]
  · have h8 : (decide (8 ≤ i)) = true := by simp [hi]
    have hmask : Nat.testBit 0xFF i = false := by
      have : (0xFF : Nat) = 2 ^ 8 - 1 := by norm_num
      rw [this, Nat.testBit_two_pow_sub_one]
      simp [Nat.not_lt.mpr hi]
    have hbbit : Nat.testBit b i = false :=
      Nat.testBit_lt_two_pow (lt_of_lt_of_le hb (by
        calc (256 : Nat) = 2 ^ 8 := by norm_num
        _ ≤ 2 ^ i := Nat.pow_le_pow_right (by norm_num) hi))
    have hidx : 8 + (i - 8) = i := by omega
    simp [h8, hmask, hbbit, hidx]

/-- For byte inputs the source per-byte step and the spec's per-byte step
agree. -/
theorem crcByte_eq_spec (crc b : Nat) (hb : b < 256) :
    crcByteSpec crc b = crcByte crc b := by
  unfold crcByteSpec crcByte
  rw [lowByteXor crc b hb]

/-- `crc16` and the spec-worded reference agree on every list of bytes. -/
theorem crc16_eq_spec_aux (data : List Nat) :
    ∀ crc : Nat, (∀ b ∈ data, b < 256) →
      data.foldl crcByteSpec crc = data.foldl crcByte crc := by
  induction data with
  | nil => intro crc _; exact List.foldl_nil.trans List.foldl_nil.symm
  | cons x xs ih =>
      intro crc h
      have hx : x < 256 := h x (List.mem_cons_self x xs)
      simp only [List.foldl_cons, crcByte_eq_spec crc x hx]
      exact ih (crcByte crc x) (fun b hb => h b (List.mem_cons_of_mem x hb))

/-! ### Bounds on the accumulator -/

/-- The inner-loop step keeps the accumulator below 2^16. -/
theorem crcShift_lt (crc : Nat) (h : crc < 65536) : crcShift crc < 65536 := by
  unfold crcShift
  have hsh : crc >>> 1 < 65536 := by
    have : crc >>> 1 = crc / 2 := Nat.shiftRight_one crc
    omega
  split
  · have h1 : crc >>> 1 < 2 ^ 16 := by norm_num at hsh ⊢; exact hsh
    have h2 : (0xA001 : Nat) < 2 ^ 16 := by norm_num
    have := Nat.xor_lt_two_pow h1 h2
    norm_num at this ⊢
    exact this
  · exact hsh

/-- Running the inner loop keeps the accumulator below 2^16. -/
theorem crcRounds_lt (n : Nat) :
    ∀ crc : Nat, crc < 65536 → crcRounds n crc < 65536 := by
  induction n with
  | zero => intro crc h; exact h
  | succ n ih => intro crc h; exact ih (crcShift crc) (crcShift_lt crc h)

/-- Processing a byte keeps the accumulator below 2^16. -/
theorem crcByte_lt (crc b : Nat) (hc : crc < 65536) (hb : b < 256) :
    crcByte crc b < 65536 := by
  unfold crcByte
  apply crcRounds_lt
  have h1 : crc < 2 ^ 16 := by norm_num at hc ⊢; exact hc
  have h2 : b < 2 ^ 16 := lt_trans hb (by norm_num)
  have := Nat.xor_lt_two_pow h1 h2
  norm_num at this ⊢
  exact this

/-- The CRC of any list of bytes is a 16-bit value. -/
theorem crc16_lt (data : List Nat) (h : ∀ b ∈ data, b < 256) :
    crc16 data < 65536 := by
  unfold crc16
  suffices haux : ∀ (l : List Nat) (crc : Nat), crc < 65536 →
      (∀ b ∈ l, b < 256) → l.foldl crcByte crc < 65536 by
    exact haux data 0xFFFF (by norm_num) h
  intro l
  induction l with
  | nil => intro crc hc _; exact hc
  | cons x xs ih =>
      intro crc hc hl
      exact ih (crcByte crc x) (crcByte_lt crc x hc (hl x (List.mem_cons_self x xs)))
        (fun b hb => hl b (List.mem_cons_of_mem x hb))

/-! ## Claim theorems for the checksum -/

/-- C4: the source `crc16` equals the CRC-16 Modbus reference definition
written from the spec (initialize to 0xFFFF, XOR each byte into the low
byte, 8 conditional shift/XOR rounds with 0xA001), for every byte
sequence including the empty one; as a Lean function it is total,
deterministic and depends only on its input bytes. -/
theorem crc16_is_modbus_reference (data : List Nat) (h : ∀ b ∈ data, b < 256) :
    crc16 data = crc16Spec data ∧ crc16 [] = 0xFFFF := by
  constructor
  · unfold crc16 crc16Spec
    exact (crc16_eq_spec_aux data 0xFFFF h).symm
  · rfl

/-- Witness for C4 at the concrete byte list `[0x24, 0x46, 0x53]`. -/
theorem crc16_is_modbus_reference_witness :
    crc16 [0x24, 0x46, 0x53] = crc16Spec [0x24, 0x46, 0x53] ∧ crc16 [] = 0xFFFF :=
  crc16_is_modbus_reference [0x24, 0x46, 0x53] (by decide)

/-! ## Frame Codec (`create_packet`, tester.py lines 31-36; validation
steps of `serial_receiver`, lines 59-74) -/

/-- The 3-byte magic constant `b'\x24\x46\x53'` ("$FS"). -/
def magicBytes : List Nat := [0x24, 0x46, 0x53]

/-- `struct.pack('<H', c)`: the little-endian byte pair of a 16-bit
value.  For `c < 65536` both entries are bytes. -/
def packLE16 (c : Nat) : List Nat := [c % 256, c / 256]

/-- `struct.unpack('<H', w[14:16])[0]`: the little-endian 16-bit value
stored at positions 14 and 15. -/
def unpackLE16At14 (w : List Nat) : Nat := w.getD 14 0 + 256 * w.getD 15 0

/-- `create_packet` from the source: magic header, then the payload bytes,
then the CRC-16 of header+payload appended little-endian. -/
def create_packet (data_bytes : List Nat) : List Nat :=
  let raw := magicBytes ++ data_bytes
  raw ++ packLE16 (crc16 raw)

/-- The validation steps `serial_receiver` applies to a 16-byte candidate:
reject when the first 3 bytes are not the magic, reject when the CRC-16 of
bytes 0..13 differs from the little-endian value at bytes 14..15, and
otherwise return the payload bytes 3..13. -/
def tryDecode (w : List Nat) : Option (List Nat) :=
  if w.take 3 ≠ magicBytes then none
  else if unpackLE16At14 w ≠ crc16 (w.take 14) then none
  else some ((w.drop 3).take 11)

/-! ## Claim theorems for the codec -/

/-- C10: for every byte-sequence input the CRC lies in `0..65535`, so the
little-endian 16-bit packing used by `create_packet` never fails: the
checksum field is exactly two bytes, each below 256. -/
theorem crc16_fits_uint16 (data : List Nat) (h : ∀ b ∈ data, b < 256) :
    crc16 data < 65536 ∧
    (packLE16 (crc16 data)).length = 2 ∧
    ∀ x ∈ packLE16 (crc16 data), x < 256 := by
  have hlt := crc16_lt data h
  refine ⟨hlt, rfl, ?_⟩
  intro x hx
  simp only [packLE16, List.mem_cons, List.mem_singleton, List.not_mem_nil,
    or_false] at hx
  rcases hx with hx | hx
  · subst hx; exact Nat.mod_lt _ (by norm_num)
  · subst hx; omega

/-- Witness for C10 on the concrete input `[0x24, 0x46, 0x53]`. -/
theorem crc16_fits_uint16_witness :
    crc16 [0x24, 0x46, 0x53] < 65536 ∧
    (packLE16 (crc16 [0x24, 0x46, 0x53])).length = 2 ∧
    ∀ x ∈ packLE16 (crc16 [0x24, 0x46, 0x53]), x < 256 :=
  crc16_fits_uint16 [0x24, 0x46, 0x53] (by decide)

/-- C1: round-trip.  For every 11-byte payload, building a frame with
`create_packet` and validating it with the receiver's steps (magic on
bytes 0..2, CRC-16 of bytes 0..13 against the little-endian value at
bytes 14..15, payload taken as bytes 3..13) succeeds and returns exactly
the payload. -/
theorem decode_encode_roundtrip (P : List Nat) (hlen : P.length = 11)
    (_hbytes : ∀ b ∈ P, b < 256) :
    tryDecode (create_packet P) = some P := by
  have hraw : (magicBytes ++ P).length = 14 := by
    simp [magicBytes, hlen]
  unfold create_packet tryDecode
  rw [List.append_assoc]
  have htake3 : (magicBytes ++ (P ++ packLE16 (crc16 (magicBytes ++ P)))).take 3
      = magicBytes := List.take_left' rfl
  have htake14 : (magicBytes ++ (P ++ packLE16 (crc16 (magicBytes ++ P)))).take 14
      = magicBytes ++ P := by
    rw [← List.append_assoc]
    exact List.take_left' hraw
  have hunpack : unpackLE16At14 (magicBytes ++ (P ++ packLE16 (crc16 (magicBytes ++ P))))
      = crc16 (magicBytes ++ P) := by
    rw [← List.append_assoc]
    unfold unpackLE16At14 packLE16
    have h14 : ((magicBytes ++ P) ++ [crc16 (magicBytes ++ P) % 256,
        crc16 (magicBytes ++ P) / 256]).getD 14 0 = crc16 (magicBytes ++ P) % 256 := by
      rw [List.getD_eq_getElem?_getD, List.getElem?_append_right (by omega), hraw]
      rfl
    have h15 : ((magicBytes ++ P) ++ [crc16 (magicBytes ++ P) % 256,
        crc16 (magicBytes ++ P) / 256]).getD 15 0 = crc16 (magicBytes ++ P) / 256 := by
      rw [List.getD_eq_getElem?_getD, List.getElem?_append_right (by omega), hraw]
      rfl
    rw [h14, h15]
    exact Nat.mod_add_div _ 256
  have hdrop3 : ((magicBytes ++ (P ++ packLE16 (crc16 (magicBytes ++ P)))).drop 3).take 11
      = P := by
    rw [List.drop_append_of_le_length (by simp [magicBytes])]
    simp only [magicBytes]
    norm_num
    exact List.take_left' hlen
  rw [htake3, htake14, hunpack, hdrop3]
  simp

/-- Witness for C1 at the payload `[10, 20, 30, 40, 50, 60, 70, 80, 90, 100, 110]`. -/
theorem decode_encode_roundtrip_witness :
    tryDecode (create_packet [10, 20, 30, 40, 50, 60, 70, 80, 90, 100, 110])
      = some [10, 20, 30, 40, 50, 60, 70, 80, 90, 100, 110] :=
  decode_encode_roundtrip _ (by decide) (by decide)

set_option maxRecDepth 10000 in
/-- C5 counterexample: `create_packet` does not fail on a payload whose
length is not 11.  On the 3-byte payload `[1, 2, 3]` it returns an
8-byte sequence rather than signalling `InvalidPayloadLength`. -/
theorem create_packet_no_length_check :
    (create_packet [1, 2, 3]).length = 8 ∧
    create_packet [1, 2, 3] =
      [0x24, 0x46, 0x53, 1, 2, 3,
       crc16 [0x24, 0x46, 0x53, 1, 2, 3] % 256,
       crc16 [0x24, 0x46, 0x53, 1, 2, 3] / 256] := by
  constructor
  · rfl
  · rfl

/-- C5 amended: `create_packet` performs no length validation; for every
payload it totally returns magic ++ payload ++ little-endian CRC, a list
of length `payload.length + 5` (so a 16-byte frame exactly when the
payload has 11 bytes). -/
theorem create_packet_total_shape (P : List Nat) :
    create_packet P = magicBytes ++ P ++ packLE16 (crc16 (magicBytes ++ P)) ∧
    (create_packet P).length = P.length + 5 := by
  constructor
  · unfold create_packet
    rw [List.append_assoc]
  · unfold create_packet packLE16
    simp [magicBytes]

/-! ## Stream Framer (`serial_receiver` inner loop, tester.py lines 54-77)

The inner `while True` loop of `serial_receiver`: while at least 16 bytes
are buffered, look at the front; a header mismatch or a CRC mismatch pops
exactly one leading byte (`buffer.pop(0)`); a valid candidate emits bytes
3..13 to the queue and drops the 16 consumed bytes (`buffer = buffer[16:]`).
`processBuffer` returns the emitted payloads in order together with the
residual buffer left when fewer than 16 bytes remain. -/

/-- The inner processing loop of `serial_receiver` on the current buffer. -/
def processBuffer (buf : List Nat) : List (List Nat) × List Nat :=
  if _h : buf.length < 16 then ([], buf)
  else if buf.take 3 ≠ magicBytes then processBuffer buf.tail
  else if unpackLE16At14 (buf.take 16) ≠ crc16 ((buf.take 16).take 14) then
    processBuffer buf.tail
  else
    (((buf.take 16).drop 3).take 11 :: (processBuffer (buf.drop 16)).1,
      (processBuffer (buf.drop 16)).2)
termination_by buf.length
decreasing_by
  · simp only [List.length_tail]; omega
  · simp only [List.length_tail]; omega
  · simp only [List.length_drop]; omega

/-- A 16-byte candidate passes the receiver's validation: correct length,
magic header, and matching CRC. -/
def FrameOk (w : List Nat) : Prop :=
  w.length = 16 ∧ w.take 3 = magicBytes ∧ unpackLE16At14 w = crc16 (w.take 14)

instance (w : List Nat) : Decidable (FrameOk w) := by
  unfold FrameOk; infer_instance

/-- The payload bytes 3..13 of a frame. -/
def payloadOf (f : List Nat) : List Nat := (f.drop 3).take 11

/-- With fewer than 16 bytes buffered the loop does nothing. -/
theorem processBuffer_short (buf : List Nat) (h : buf.length < 16) :
    processBuffer buf = ([], buf) := by
  rw [processBuffer, dif_pos h]

/-- An invalid candidate at the front makes the loop drop exactly one
leading byte. -/
theorem processBuffer_step_invalid (buf : List Nat) (hlen : 16 ≤ buf.length)
    (hbad : ¬ FrameOk (buf.take 16)) :
    processBuffer buf = processBuffer buf.tail := by
  have hlen16 : (buf.take 16).length = 16 := by
    simp only [List.length_take]; omega
  have htake3 : (buf.take 16).take 3 = buf.take 3 := by
    rw [List.take_take]; norm_num
  by_cases hmagic : buf.take 3 = magicBytes
  · have hcrc : unpackLE16At14 (buf.take 16) ≠ crc16 ((buf.take 16).take 14) := by
      intro hc
      exact hbad ⟨hlen16, by rw [htake3]; exact hmagic, by
        rw [List.take_take] at hc ⊢; exact hc⟩
    conv_lhs => rw [processBuffer]
    rw [dif_neg (by omega), if_neg (by simp [hmagic]), if_pos hcrc]
  · conv_lhs => rw [processBuffer]
    rw [dif_neg (by omega), if_pos hmagic]

/-- A valid candidate at the front makes the loop emit the payload and
remove exactly the 16 consumed bytes. -/
theorem processBuffer_step_valid (buf : List Nat) (hok : FrameOk (buf.take 16)) :
    processBuffer buf =
      (payloadOf (buf.take 16) :: (processBuffer (buf.drop 16)).1,
        (processBuffer (buf.drop 16)).2) := by
  obtain ⟨hlen16, hmagic, hcrc⟩ := hok
  have hlen : 16 ≤ buf.length := by
    simp only [List.length_take] at hlen16; omega
  have htake3 : (buf.take 16).take 3 = buf.take 3 := by
    rw [List.take_take]; norm_num
  conv_lhs => rw [processBuffer]
  rw [dif_neg (by omega), if_neg (by rw [htake3] at hmagic; simp [hmagic]),
    if_neg (by simp [hcrc])]
  rfl

/-- The residual buffer after a processing pass always has fewer than 16
bytes: the auxiliary bounded-length induction. -/
theorem processBuffer_residual_lt_aux (n : Nat) :
    ∀ buf : List Nat, buf.length ≤ n → (processBuffer buf).2.length < 16 := by
  induction n with
  | zero =>
      intro buf hb
      rw [processBuffer_short buf (by omega)]
      simpa using by omega
  | succ n ih =>
      intro buf hb
      by_cases hlen : buf.length < 16
      · rw [processBuffer_short buf hlen]
        exact hlen
      · by_cases hok : FrameOk (buf.take 16)
        · rw [processBuffer_step_valid buf hok]
          exact ih (buf.drop 16) (by simp only [List.length_drop]; omega)
        · rw [processBuffer_step_invalid buf (by omega) hok]
          exact ih buf.tail (by simp only [List.length_tail]; omega)

/-- Feeding in two chunks equals feeding at once: the pass over
`buf ++ chunk` first produces everything the pass over `buf` produces and
then continues from the persisted residual extended by `chunk`. -/
theorem processBuffer_append_aux (n : Nat) :
    ∀ buf chunk : List Nat, buf.length ≤ n →
      processBuffer (buf ++ chunk) =
        ((processBuffer buf).1 ++ (processBuffer ((processBuffer buf).2 ++ chunk)).1,
          (processBuffer ((processBuffer buf).2 ++ chunk)).2) := by
  induction n with
  | zero =>
      intro buf chunk hb
      have hnil : buf = [] := List.length_eq_zero.mp (by omega)
      subst hnil
      rw [processBuffer_short [] (by simp)]
      simp
  | succ n ih =>
      intro buf chunk hb
      by_cases hlen : buf.length < 16
      · rw [processBuffer_short buf hlen]
        simp
      · have htake16 : (buf ++ chunk).take 16 = buf.take 16 :=
          List.take_append_of_le_length (by omega)
        by_cases hok : FrameOk (buf.take 16)
        · have hdrop : (buf ++ chunk).drop 16 = buf.drop 16 ++ chunk :=
            List.drop_append_of_le_length (by omega)
          rw [processBuffer_step_valid (buf ++ chunk) (by rw [htake16]; exact hok),
            processBuffer_step_valid buf hok, htake16, hdrop,
            ih (buf.drop 16) chunk (by simp only [List.length_drop]; omega)]
          simp
        · have htail : (buf ++ chunk).tail = buf.tail ++ chunk :=
            List.tail_append_of_ne_nil (by intro hnil; rw [hnil] at hlen; simp at hlen)
          rw [processBuffer_step_invalid (buf ++ chunk)
              (by rw [List.length_append]; omega) (by rw [htake16]; exact hok),
            processBuffer_step_invalid buf (by omega) hok, htail,
            ih buf.tail chunk (by simp only [List.length_tail]; omega)]

/-! ## Claim theorems for the framer loop -/

/-- C3: resync step policy.  In every iteration with at least 16 bytes
buffered, a candidate failing validation for any reason (bad magic or bad
CRC) makes the loop remove exactly one leading byte; a valid candidate
makes it emit the payload and remove exactly the 16 consumed bytes. -/
theorem framer_step_policy (buf : List Nat) (hlen : 16 ≤ buf.length) :
    (¬ FrameOk (buf.take 16) → processBuffer buf = processBuffer buf.tail) ∧
    (FrameOk (buf.take 16) →
      processBuffer buf =
        (payloadOf (buf.take 16) :: (processBuffer (buf.drop 16)).1,
          (processBuffer (buf.drop 16)).2)) :=
  ⟨fun hbad => processBuffer_step_invalid buf hlen hbad,
   fun hok => processBuffer_step_valid buf hok⟩

/-- Witness for C3 on a concrete 16-byte buffer with a bad header. -/
theorem framer_step_policy_witness :
    (16 : Nat) ≤ ([0, 0, 0, 0, 0, 0, 0, 0, 0, 0, 0, 0, 0, 0, 0, 0] : List Nat).length ∧
    processBuffer [0, 0, 0, 0, 0, 0, 0, 0, 0, 0, 0, 0, 0, 0, 0, 0] =
      processBuffer ([0, 0, 0, 0, 0, 0, 0, 0, 0, 0, 0, 0, 0, 0, 0, 0] : List Nat).tail :=
  ⟨by decide,
    (framer_step_policy [0, 0, 0, 0, 0, 0, 0, 0, 0, 0, 0, 0, 0, 0, 0, 0]
      (by decide)).1 (by decide)⟩

/-- C8: the processing pass always terminates (`processBuffer` is a total
function), and when it ends the buffer holds no unprocessed complete
frame: it is empty or holds fewer than 16 residual bytes.  The residual
state persists to the next feed: processing `buf ++ chunk` yields the
payloads of the pass over `buf` followed by those of a pass over the
persisted residual extended with `chunk`. -/
theorem framer_pass_invariant (buf : List Nat) :
    (processBuffer buf).2.length < 16 ∧
    ∀ chunk : List Nat,
      processBuffer (buf ++ chunk) =
        ((processBuffer buf).1 ++ (processBuffer ((processBuffer buf).2 ++ chunk)).1,
          (processBuffer ((processBuffer buf).2 ++ chunk)).2) :=
  ⟨processBuffer_residual_lt_aux buf.length buf le_rfl,
   fun chunk => processBuffer_append_aux buf.length buf chunk le_rfl⟩

/-! ## Resync correctness (C2)

A stream is modelled as leading junk `j0` followed by frame/junk pairs:
each pair contributes its 16-byte valid frame and then the junk bytes that
follow it.  The proviso of the claim — the junk never assembles into a
spurious valid 16-byte frame together with adjacent bytes — is captured by
`cleanJunk`: no 16-byte window starting inside a junk segment passes the
receiver's validation. -/

/-- The byte stream assembled from frame/following-junk pairs. -/
def assemble : List (List Nat × List Nat) → List Nat
  | [] => []
  | (f, j) :: rest => f ++ (j ++ assemble rest)

/-- No 16-byte window starting inside the junk segment `j` (followed by
the remaining stream `rest`) passes validation. -/
def cleanJunk (j rest : List Nat) : Prop :=
  ∀ i < j.length, ¬ FrameOk (((j ++ rest).drop i).take 16)

/-- Every junk segment of the pair list is clean with respect to the
stream that follows it. -/
def cleanPairs : List (List Nat × List Nat) → Prop
  | [] => True
  | (_, j) :: rest => cleanJunk j (assemble rest) ∧ cleanPairs rest

instance (j rest : List Nat) : Decidable (cleanJunk j rest) := by
  unfold cleanJunk; infer_instance

instance cleanPairsDec : (l : List (List Nat × List Nat)) → Decidable (cleanPairs l)
  | [] => Decidable.isTrue trivial
  | (_, j) :: rest =>
      letI := cleanPairsDec rest
      inferInstanceAs (Decidable (cleanJunk j (assemble rest) ∧ cleanPairs rest))

/-- Scanning a clean junk segment drops it byte by byte without emitting
anything, provided at least 16 bytes follow it. -/
theorem processBuffer_scan_junk (j : List Nat) :
    ∀ rest : List Nat, 16 ≤ rest.length → cleanJunk j rest →
      processBuffer (j ++ rest) = processBuffer rest := by
  induction j with
  | nil => intro rest _ _; rw [List.nil_append]
  | cons b j ih =>
      intro rest hrest hclean
      have hlen : 16 ≤ (b :: j ++ rest).length := by
        simp only [List.length_cons, List.length_append]; omega
      have hbad : ¬ FrameOk (((b :: j) ++ rest).take 16) := by
        have := hclean 0 (by simp)
        simpa using this
      rw [processBuffer_step_invalid (b :: j ++ rest) hlen hbad]
      simp only [List.cons_append, List.tail_cons]
      exact ih rest hrest fun i hi => by
        have := hclean (i + 1) (by simp only [List.length_cons]; omega)
        simpa using this

/-- Scanning clean trailing junk emits nothing. -/
theorem processBuffer_trailing_junk (j : List Nat) (hclean : cleanJunk j []) :
    (processBuffer j).1 = [] := by
  induction j with
  | nil => rw [processBuffer_short [] (by simp)]
  | cons b j ih =>
      by_cases hlen : (b :: j).length < 16
      · rw [processBuffer_short _ hlen]
      · have hbad : ¬ FrameOk ((b :: j).take 16) := by
          have := hclean 0 (by simp)
          simpa using this
        rw [processBuffer_step_invalid (b :: j) (by omega) hbad]
        exact ih fun i hi => by
          have := hclean (i + 1) (by simp only [List.length_cons]; omega)
          simpa using this

/-- The framer applied to leading junk plus frame/junk pairs emits exactly
the frames' payloads in order. -/
theorem processBuffer_emits_payloads :
    ∀ (pairs : List (List Nat × List Nat)) (j0 : List Nat),
      (∀ p ∈ pairs, FrameOk p.1) →
      cleanJunk j0 (assemble pairs) →
      cleanPairs pairs →
      (processBuffer (j0 ++ assemble pairs)).1 =
        pairs.map fun p => payloadOf p.1 := by
  intro pairs
  induction pairs with
  | nil =>
      intro j0 _ hclean _
      simp only [assemble, List.append_nil, List.map_nil]
      exact processBuffer_trailing_junk j0 (by simpa [cleanJunk, assemble] using hclean)
  | cons p rest ih =>
      obtain ⟨f, j⟩ := p
      intro j0 hframes hclean hcp
      have hf : FrameOk f := hframes (f, j) (List.mem_cons_self _ _)
      have hflen : f.length = 16 := hf.1
      have hassem : assemble ((f, j) :: rest) = f ++ (j ++ assemble rest) := rfl
      rw [hassem]
      rw [processBuffer_scan_junk j0 (f ++ (j ++ assemble rest))
        (by simp only [List.length_append]; omega) hclean]
      have htake : (f ++ (j ++ assemble rest)).take 16 = f := List.take_left' hflen
      have hdrop : (f ++ (j ++ assemble rest)).drop 16 = j ++ assemble rest :=
        List.drop_left' hflen
      rw [processBuffer_step_valid _ (by rw [htake]; exact hf), htake, hdrop]
      simp only [List.map_cons]
      congr 1
      exact ih j (fun q hq => hframes q (List.mem_cons_of_mem _ hq)) hcp.1 hcp.2

/-- C2: resync correctness.  For every sequence of valid 16-byte frames
with arbitrary junk bytes prepended, interspersed between frames, or
appended — provided the junk together with adjacent bytes never forms a
spurious valid 16-byte frame (`cleanJunk`/`cleanPairs`) — the framer's
buffer loop emits exactly the payloads of the original frames, in their
original order, each exactly once. -/
theorem framer_resync_correct (pairs : List (List Nat × List Nat)) (j0 : List Nat)
    (hframes : ∀ p ∈ pairs, FrameOk p.1)
    (hlead : cleanJunk j0 (assemble pairs))
    (hjunk : cleanPairs pairs) :
    (processBuffer (j0 ++ assemble pairs)).1 = pairs.map fun p => payloadOf p.1 :=
  processBuffer_emits_payloads pairs j0 hframes hlead hjunk

set_option maxRecDepth 100000 in
/-- Witness for C2: two concrete frames with junk before, between and
after them. -/
theorem framer_resync_correct_witness :
    (processBuffer ([0x24, 0x99] ++ assemble
        [(create_packet [10, 20, 30, 40, 50, 60, 70, 80, 90, 100, 110], [0x11]),
         (create_packet [1, 2, 3, 4, 5, 6, 7, 8, 9, 10, 11], [])])).1 =
      ([(create_packet [10, 20, 30, 40, 50, 60, 70, 80, 90, 100, 110], [0x11]),
        (create_packet [1, 2, 3, 4, 5, 6, 7, 8, 9, 10, 11], ([] : List Nat))]).map
        (fun p => payloadOf p.1) :=
  framer_resync_correct _ _ (by decide) (by decide) (by decide)

/-! ## Verification Session (`main`, tester.py lines 145-178)

The per-field comparison of `main` is embedded with exact rational
arithmetic in place of Python float division; the cross-thread queue is
embedded as an explicit list of receive events (a queue timeout or a
received payload). -/

/-- One comparison record appended to `results_all` by `main`. -/
structure CompRec where
  id : Nat
  expected : ℤ
  received : ℤ
  error : ℚ
  status : String
  deriving DecidableEq

/-- The record `main` builds for field index `idx` (0-based in the loop;
stored 1-based): `error = ((received - expected) / expected) * 100` and
`status = "PASS"` iff `|error| ≤ 1`. -/
def fieldRecord (idx : Nat) (expected received : ℤ) : CompRec :=
  let error : ℚ := (((received : ℚ) - (expected : ℚ)) / (expected : ℚ)) * 100
  { id := idx + 1
    expected := expected
    received := received
    error := error
    status := if |error| ≤ 1 then "PASS" else "FAIL" }

/-- The 11 records `main`'s `for idx in range(11)` loop appends for one
received payload. -/
def payloadRecords (expectedData recvData : List ℤ) : List CompRec :=
  (List.range 11).map fun idx =>
    fieldRecord idx (expectedData.getD idx 0) (recvData.getD idx 0)

/-- All records of a session that receives the given payloads, in arrival
order. -/
def sessionRecords (expectedData : List ℤ) (payloads : List (List ℤ)) : List CompRec :=
  payloads.flatMap (payloadRecords expectedData)

/-- A receive attempt on the queue either times out or yields a payload. -/
inductive RxEvent where
  | timeout : RxEvent
  | payload : List ℤ → RxEvent

/-- The payloads carried by a list of receive events, in order. -/
def payloadsOf (evs : List RxEvent) : List (List ℤ) :=
  evs.filterMap fun e =>
    match e with
    | RxEvent.timeout => none
    | RxEvent.payload p => some p

/-- The consumption loop of `main`: while fewer than `target` payloads
have been received, wait on the queue; a timeout is reported (the
`reports` counter) and the loop retries; a payload increments the received
count and appends its 11 comparison records.  Returns `none` when the
event list is exhausted while the loop is still waiting. -/
def consumeLoop (E : List ℤ) (target received : Nat) (results : List CompRec)
    (reports : Nat) (evs : List RxEvent) : Option (List CompRec × Nat × Nat) :=
  if received < target then
    match evs with
    | [] => none
    | RxEvent.timeout :: rest => consumeLoop E target received results (reports + 1) rest
    | RxEvent.payload p :: rest =>
        consumeLoop E target (received + 1) (results ++ payloadRecords E p) reports rest
  else some (results, received, reports)

/-! ## Claim theorems for the session -/

/-- C6: per-field comparison.  For a non-zero expected value the record
has `percentError = (received - expected) / expected * 100` and verdict
PASS exactly when `|percentError| ≤ 1`, FAIL otherwise. -/
theorem comparison_formula (idx : Nat) (e r : ℤ) (_he : e ≠ 0) :
    (fieldRecord idx e r).error = (((r : ℚ) - (e : ℚ)) / (e : ℚ)) * 100 ∧
    ((fieldRecord idx e r).status = "PASS" ↔
      |(((r : ℚ) - (e : ℚ)) / (e : ℚ)) * 100| ≤ 1) ∧
    ((fieldRecord idx e r).status = "FAIL" ↔
      ¬ |(((r : ℚ) - (e : ℚ)) / (e : ℚ)) * 100| ≤ 1) := by
  refine ⟨rfl, ?_, ?_⟩ <;>
    · unfold fieldRecord
      dsimp only
      split <;> simp_all

/-- Witness for C6: expected 100, received 101 gives percent error 1 and
verdict PASS. -/
theorem comparison_formula_witness :
    (fieldRecord 0 100 101).error = (((101 : ℚ) - (100 : ℚ)) / (100 : ℚ)) * 100 ∧
    ((fieldRecord 0 100 101).status = "PASS" ↔
      |(((101 : ℚ) - (100 : ℚ)) / (100 : ℚ)) * 100| ≤ 1) ∧
    ((fieldRecord 0 100 101).status = "FAIL" ↔
      ¬ |(((101 : ℚ) - (100 : ℚ)) / (100 : ℚ)) * 100| ≤ 1) :=
  comparison_formula 0 100 101 (by norm_num)

/-- Each received payload contributes exactly 11 records. -/
theorem payloadRecords_length (E p : List ℤ) : (payloadRecords E p).length = 11 := by
  simp [payloadRecords]

/-- Records of a session: the head payload's block followed by the rest. -/
theorem sessionRecords_cons (E p : List ℤ) (ps : List (List ℤ)) :
    sessionRecords E (p :: ps) = payloadRecords E p ++ sessionRecords E ps := by
  simp [sessionRecords]

/-- Total record count of a session. -/
theorem sessionRecords_length (E : List ℤ) (ps : List (List ℤ)) :
    (sessionRecords E ps).length = 11 * ps.length := by
  induction ps with
  | nil => rfl
  | cons p ps ih =>
      rw [sessionRecords_cons, List.length_append, payloadRecords_length, ih,
        List.length_cons]
      ring

/-- The record at overall position `11 * q + r` is field `r` of payload `q`. -/
theorem sessionRecords_get (E : List ℤ) :
    ∀ (ps : List (List ℤ)) (q r : Nat), q < ps.length → r < 11 →
      (sessionRecords E ps)[11 * q + r]? =
        some (fieldRecord r (E.getD r 0) ((ps.getD q []).getD r 0)) := by
  intro ps
  induction ps with
  | nil => intro q r hq _; simp at hq
  | cons p ps ih =>
      intro q r hq hr
      rw [sessionRecords_cons]
      cases q with
      | zero =>
          rw [List.getElem?_append_left (by rw [payloadRecords_length]; omega)]
          simp only [Nat.mul_zero, Nat.zero_add, payloadRecords, List.getElem?_map,
            List.getElem?_range hr, Option.map_some', List.getD]
          rfl
      | succ q =>
          rw [List.getElem?_append_right (by rw [payloadRecords_length]; omega)]
          rw [payloadRecords_length]
          have hidx : 11 * (q + 1) + r - 11 = 11 * q + r := by ring_nf; omega
          rw [hidx]
          have hgd : ((p :: ps).getD (q + 1) []) = ps.getD q [] := by
            simp [List.getD]
          rw [hgd]
          exact ih q r (by simpa using hq) hr

/-- C7: record count and order.  A session that receives `N` payloads
produces exactly `11 * N` comparison records (55 when `N = 5`), ordered by
payload arrival order and, within each payload, by field order, with
1-based field indices. -/
theorem session_record_count_order (E : List ℤ) (ps : List (List ℤ)) :
    (sessionRecords E ps).length = 11 * ps.length ∧
    ∀ q r : Nat, q < ps.length → r < 11 →
      (sessionRecords E ps)[11 * q + r]? =
        some (fieldRecord r (E.getD r 0) ((ps.getD q []).getD r 0)) ∧
      (fieldRecord r (E.getD r 0) ((ps.getD q []).getD r 0)).id = r + 1 :=
  ⟨sessionRecords_length E ps,
   fun q r hq hr => ⟨sessionRecords_get E ps q r hq hr, rfl⟩⟩

/-- Witness for C7: five received payloads give 55 records and record
`11 * 2 + 3` is field 4 (1-based) of the third payload. -/
theorem session_record_count_order_witness :
    (sessionRecords [10, 20, 30, 40, 50, 60, 70, 80, 90, 100, 110]
        [[10], [20], [30], [40], [50]]).length = 11 * 5 ∧
    ((sessionRecords [10, 20, 30, 40, 50, 60, 70, 80, 90, 100, 110]
        [[10], [20], [30], [40], [50]])[11 * 2 + 3]? =
      some (fieldRecord 3 (([10, 20, 30, 40, 50, 60, 70, 80, 90, 100, 110] :
          List ℤ).getD 3 0)
        ((([[10], [20], [30], [40], [50]] : List (List ℤ)).getD 2 []).getD 3 0)) ∧
      (fieldRecord 3 (([10, 20, 30, 40, 50, 60, 70, 80, 90, 100, 110] :
          List ℤ).getD 3 0)
        ((([[10], [20], [30], [40], [50]] : List (List ℤ)).getD 2 []).getD 3 0)).id
        = 3 + 1) :=
  ⟨(session_record_count_order [10, 20, 30, 40, 50, 60, 70, 80, 90, 100, 110]
      [[10], [20], [30], [40], [50]]).1,
   (session_record_count_order [10, 20, 30, 40, 50, 60, 70, 80, 90, 100, 110]
      [[10], [20], [30], [40], [50]]).2 2 3 (by decide) (by decide)⟩

/-! ### The consumption loop (C9) -/

/-- Once the target is reached the loop stops and returns its state. -/
theorem consumeLoop_done (E : List ℤ) (target received : Nat)
    (results : List CompRec) (reports : Nat) (evs : List RxEvent)
    (h : ¬ received < target) :
    consumeLoop E target received results reports evs
      = some (results, received, reports) := by
  rw [consumeLoop.eq_def, if_neg h]

/-- A queue timeout is reported, leaves the received count unchanged, and
the loop retries on the remaining events. -/
theorem consumeLoop_timeout (E : List ℤ) (target received : Nat)
    (results : List CompRec) (reports : Nat) (evs : List RxEvent)
    (h : received < target) :
    consumeLoop E target received results reports (RxEvent.timeout :: evs)
      = consumeLoop E target received results (reports + 1) evs := by
  conv_lhs => rw [consumeLoop.eq_def]
  rw [if_pos h]

/-- A received payload increments the count and appends its records. -/
theorem consumeLoop_payload (E : List ℤ) (target received : Nat)
    (results : List CompRec) (reports : Nat) (p : List ℤ) (evs : List RxEvent)
    (h : received < target) :
    consumeLoop E target received results reports (RxEvent.payload p :: evs)
      = consumeLoop E target (received + 1) (results ++ payloadRecords E p)
          reports evs := by
  conv_lhs => rw [consumeLoop.eq_def]
  rw [if_pos h]

/-- Completion of the consumption loop: with enough payloads among the
events the loop returns the records of the first `target - received`
remaining payloads, ending at exactly `target` received. -/
theorem consumeLoop_completes_aux (E : List ℤ) (target : Nat) :
    ∀ (evs : List RxEvent) (received : Nat) (results : List CompRec) (reports : Nat),
      received ≤ target → target - received ≤ (payloadsOf evs).length →
      ∃ reports', consumeLoop E target received results reports evs
        = some (results ++ sessionRecords E ((payloadsOf evs).take (target - received)),
            target, reports') := by
  intro evs
  induction evs with
  | nil =>
      intro received results reports hle hcount
      have hrt : received = target := by
        simp only [payloadsOf, List.filterMap_nil, List.length_nil] at hcount
        omega
      subst hrt
      refine ⟨reports, ?_⟩
      rw [consumeLoop_done E received received results reports [] (by omega)]
      simp [sessionRecords]
  | cons e rest ih =>
      intro received results reports hle hcount
      by_cases hlt : received < target
      · cases e with
        | timeout =>
            have hpay : payloadsOf (RxEvent.timeout :: rest) = payloadsOf rest := by
              simp [payloadsOf]
            rw [consumeLoop_timeout E target received results reports rest hlt, hpay]
            rw [hpay] at hcount
            exact ih received results (reports + 1) hle hcount
        | payload p =>
            have hpay : payloadsOf (RxEvent.payload p :: rest) = p :: payloadsOf rest := by
              simp [payloadsOf]
            rw [consumeLoop_payload E target received results reports p rest hlt, hpay]
            rw [hpay] at hcount
            obtain ⟨rep', h'⟩ := ih (received + 1) (results ++ payloadRecords E p) reports
              (by omega) (by simp only [List.length_cons] at hcount; omega)
            refine ⟨rep', ?_⟩
            rw [h']
            have htake : (p :: payloadsOf rest).take (target - received)
                = p :: (payloadsOf rest).take (target - (received + 1)) := by
              rw [show target - received = (target - (received + 1)) + 1 by omega]
              rfl
            rw [htake, sessionRecords_cons, List.append_assoc]
      · have hrt : received = target := by omega
        subst hrt
        refine ⟨reports, ?_⟩
        rw [consumeLoop_done E received received results reports _ (by omega)]
        simp [sessionRecords]

/-- C9: receive-timeout handling.  A timeout while waiting for the next
payload is reported, does not abort the session, does not increment the
received count, and the loop retries; the consumption loop ends only after
exactly `target` payloads have been received and compared, returning
exactly their records. -/
theorem session_timeout_retry_and_completion (E : List ℤ) (target : Nat)
    (evs : List RxEvent) :
    (∀ (received : Nat) (results : List CompRec) (reports : Nat)
        (rest : List RxEvent), received < target →
      consumeLoop E target received results reports (RxEvent.timeout :: rest)
        = consumeLoop E target received results (reports + 1) rest) ∧
    (target ≤ (payloadsOf evs).length →
      ∃ reports', consumeLoop E target 0 [] 0 evs
        = some (sessionRecords E ((payloadsOf evs).take target), target, reports')) := by
  constructor
  · intro received results reports rest h
    exact consumeLoop_timeout E target received results reports rest h
  · intro hcount
    obtain ⟨rep', h'⟩ := consumeLoop_completes_aux E target evs 0 [] 0
      (Nat.zero_le _) (by simpa using hcount)
    exact ⟨rep', by simpa using h'⟩

/-- Witness for C9: target 1, one timeout followed by one payload. -/
theorem session_timeout_retry_and_completion_witness :
    (consumeLoop [10] 1 0 [] 5 [RxEvent.timeout, RxEvent.payload [10]]
      = consumeLoop [10] 1 0 [] 6 [RxEvent.payload [10]]) ∧
    ∃ reports', consumeLoop [10] 1 0 [] 0 [RxEvent.timeout, RxEvent.payload [10]]
      = some (sessionRecords [10]
          ((payloadsOf [RxEvent.timeout, RxEvent.payload [10]]).take 1), 1, reports') :=
  ⟨(session_timeout_retry_and_completion [10] 1
      [RxEvent.timeout, RxEvent.payload [10]]).1 0 [] 5 [RxEvent.payload [10]]
      (by decide),
   (session_timeout_retry_and_completion [10] 1
      [RxEvent.timeout, RxEvent.payload [10]]).2 (by decide)⟩

end UartTester
